import Mathlib

/-!
Verification of the adaptive character selection engine of the kana-dojo
repository, and of the kanji input-game handlers that drive it
(`src/features/Kanji/components/Game/Input.tsx`).

The selector module itself (`@/shared/lib/adaptiveSelection`, exposing
`selectWeightedCharacter`, `markCharacterSeen`, `updateCharacterWeight`)
is not part of the provided sources; its operations are modelled from the
specification and flagged as such in their doc comments.  The game
handlers (`handleCorrectAnswer`, `handleWrongAnswer`, `generateNewCharacter`,
`handleSkip`) are embedded from the TSX source.
-/

namespace KanaDojo

/-- A Character Key: an opaque string identifying a drillable unit. -/
abbrev Key := String

/-- The Weight Table: an association list from Character Key to a
rational-valued weight (the spec's positive reals, embedded as `ℚ`). -/
abbrev WeightTable := List (Key × ℚ)

/-- Lookup of a key's stored weight in the table (first binding wins). -/
def lookupW : WeightTable → Key → Option ℚ
  | [], _ => none
  | (k', w) :: t, k => if k' = k then some w else lookupW t k

/-- Modelled from the spec: weight resolution used by the missing
`adaptiveSelection` module — the current weight of a key, default `1.0`
when the key has no entry in the Weight Table. -/
def getWeight (t : WeightTable) (k : Key) : ℚ :=
  (lookupW t k).getD 1

/-- Replace the first binding of `k` (or append a fresh one). -/
def setW : WeightTable → Key → ℚ → WeightTable
  | [], k, w => [(k, w)]
  | (k', w') :: t, k, w =>
    if k' = k then (k, w) :: t else (k', w') :: setW t k w

/-- Modelled from the spec: tuning constants of the missing
`adaptiveSelection` module — the damping factor for correct answers, the
boosting factor for wrong answers, the weight floor and cap, and the size
of the Recency Memory. -/
structure Config where
  dCorrect : ℚ
  dWrong : ℚ
  wMin : ℚ
  wMax : ℚ
  recencyN : Nat
deriving DecidableEq, Repr

/-- The spec's constraints on the tuning constants: `d_correct < 1`,
`d_wrong > 1`, `0 < w_min`, and the default weight `1.0` lies within the
`[w_min, w_max]` bounds. -/
def Config.Valid (c : Config) : Prop :=
  0 < c.dCorrect ∧ c.dCorrect < 1 ∧ 1 < c.dWrong ∧
    0 < c.wMin ∧ c.wMin ≤ 1 ∧ 1 ≤ c.wMax

instance (c : Config) : Decidable c.Valid := by
  unfold Config.Valid
  infer_instance

/-- The spec's recommended defaults: `d_correct = 0.85`, `d_wrong = 1.3`,
`w_min = 0.1`, `w_max = 10`, recency covering the immediately preceding
pick. -/
def defaultConfig : Config :=
  { dCorrect := 17/20, dWrong := 13/10, wMin := 1/10, wMax := 10, recencyN := 1 }

/-- Modelled from the spec: the state of the missing Adaptive Selector —
a Weight Table plus a Recency Memory of recently selected keys. -/
structure SelectorState where
  weightTable : WeightTable
  recency : List Key
deriving DecidableEq, Repr

/-- The selector starts with an empty Weight Table and empty Recency
Memory. -/
def initialSelector : SelectorState := ⟨[], []⟩

/-- Modelled from the spec: `markCharacterSeen` of the missing
`adaptiveSelection` module — ensures the key has a Weight Table entry
(created at default weight `1.0` if absent) and records it in Recency
Memory. -/
def markCharacterSeen (cfg : Config) (s : SelectorState) (k : Key) : SelectorState :=
  { weightTable :=
      if (lookupW s.weightTable k).isSome then s.weightTable
      else (k, 1) :: s.weightTable
    recency := (k :: s.recency).take cfg.recencyN }

/-- One weight adjustment step: on a correct answer multiply by
`d_correct` floored at `w_min`; on a wrong answer multiply by `d_wrong`
capped at `w_max`. -/
def applyOutcome (cfg : Config) (w : ℚ) (wasCorrect : Bool) : ℚ :=
  if wasCorrect then max cfg.wMin (w * cfg.dCorrect)
  else min cfg.wMax (w * cfg.dWrong)

/-- Modelled from the spec: `updateCharacterWeight` of the missing
`adaptiveSelection` module — a key with no entry is initialized at the
default weight `1.0` (equivalent to calling `markCharacterSeen` first),
then the adjustment is applied. -/
def updateCharacterWeight (cfg : Config) (s : SelectorState) (k : Key)
    (wasCorrect : Bool) : SelectorState :=
  let s' := if (lookupW s.weightTable k).isSome then s else markCharacterSeen cfg s k
  let w := applyOutcome cfg (getWeight s'.weightTable k) wasCorrect
  { s' with weightTable := setW s'.weightTable k w }

/-- The selector's single error kind, raised on selection from an empty
pool. -/
inductive SelectorError where
  | invalidPoolError
deriving DecidableEq, Repr

/-- Modelled from the spec: the effective selection weight used by the
missing `selectWeightedCharacter` — the stored weight (default `1.0`),
forced to `0` for the excluded key when the pool has more than one
distinct element. -/
def effWeight (t : WeightTable) (pool : List Key) (exclude : Option Key)
    (k : Key) : ℚ :=
  if exclude = some k ∧ 1 < pool.dedup.length then 0 else getWeight t k

/-- Modelled from the spec: the cumulative-weight walk of the missing
`selectWeightedCharacter` — return the first key whose cumulative weight
exceeds the draw point `r` (phrased by running subtraction: the first key
whose own weight exceeds what remains of `r`). -/
def drawFrom : List (Key × ℚ) → ℚ → Option Key
  | [], _ => none
  | (k, w) :: rest, r => if r < w then some k else drawFrom rest (r - w)

/-- The key-to-effective-weight pairing of a pool, in pool order. -/
def poolWeights (t : WeightTable) (pool : List Key) (exclude : Option Key) :
    List (Key × ℚ) :=
  pool.map (fun k => (k, effWeight t pool exclude k))

/-- Modelled from the spec: `selectWeightedCharacter` of the missing
`adaptiveSelection` module — fails with `InvalidPoolError` on an empty
pool, returns the sole element of a singleton pool unconditionally, and
otherwise performs the weighted draw at draw point `r` over the
cumulative effective weights (falling back to the last pool element if
`r` lies outside `[0, total)`).  It reads the selector state and never
writes it. -/
def selectWeightedCharacter (s : SelectorState) (pool : List Key)
    (exclude : Option Key) (r : ℚ) : Except SelectorError (Key × SelectorState) :=
  match pool with
  | [] => .error .invalidPoolError
  | [k] => .ok (k, s)
  | a :: b :: rest =>
    match drawFrom (poolWeights s.weightTable (a :: b :: rest) exclude) r with
    | some k => .ok (k, s)
    | none => .ok ((b :: rest).getLastD a, s)

/-- The total effective weight of a pool (the `total` of the uniform draw
range `[0, total)`). -/
def effTotal (t : WeightTable) (pool : List Key) (exclude : Option Key) : ℚ :=
  ((poolWeights t pool exclude).map Prod.snd).sum

/-- The total stored weight of a pool when no exclusion applies. -/
def totalWeight (t : WeightTable) (pool : List Key) : ℚ :=
  (pool.map (getWeight t)).sum

/-- The weight accumulated strictly before the first occurrence of a key
in pool order, for an arbitrary weighting `f`. -/
def cumBeforeF (f : Key → ℚ) : List Key → Key → ℚ
  | [], _ => 0
  | a :: rest, k => if a = k then 0 else f a + cumBeforeF f rest k

/-- The cumulative stored weight accumulated strictly before key `k` in
pool order (the left endpoint of `k`'s selection interval). -/
def cumBefore (t : WeightTable) (pool : List Key) (k : Key) : ℚ :=
  cumBeforeF (getWeight t) pool k

/-! ### The kanji input game component, embedded from
`src/features/Kanji/components/Game/Input.tsx`.  Only the state the
selector interacts with is modelled: the displayed character
(`correctChar`), the score, the text input, and the shared selector
instance.  Rendering, audio, stats and achievement collaborators are
outside the core per the spec's scope. -/

/-- The claim-relevant state of the `KanjiInputGame` component. -/
structure GameState where
  selector : SelectorState
  correctChar : Key
  score : Nat
  inputValue : String
deriving DecidableEq, Repr

/-- `generateNewCharacter` from the TSX source: draw a new character from
the pool with the currently displayed character passed as `exclude`, mark
it seen, and display it. -/
def generateNewCharacter (cfg : Config) (pool : List Key) (r : ℚ)
    (g : GameState) : Except SelectorError GameState :=
  match selectWeightedCharacter g.selector pool (some g.correctChar) r with
  | .error e => .error e
  | .ok (newChar, s') =>
    .ok { g with selector := markCharacterSeen cfg s' newChar
                 correctChar := newChar }

/-- `handleCorrectAnswer` from the TSX source: increment the score, clear
the input, draw the next character (excluding the answered one), then
lower the answered character's weight (`wasCorrect = true`).  The weight
update targets the character displayed when the handler ran, not the
newly drawn one. -/
def handleCorrectAnswer (cfg : Config) (pool : List Key) (r : ℚ)
    (g : GameState) : Except SelectorError GameState :=
  match generateNewCharacter cfg pool r
      { g with score := g.score + 1, inputValue := "" } with
  | .error e => .error e
  | .ok g' =>
    .ok { g' with selector := updateCharacterWeight cfg g'.selector g.correctChar true }

/-- `handleWrongAnswer` from the TSX source: clear the input, decrement
the score (clamped at zero), and raise the answered character's weight
(`wasCorrect = false`).  No new character is drawn: the displayed
character stays. -/
def handleWrongAnswer (cfg : Config) (g : GameState) : GameState :=
  { g with inputValue := ""
           score := if g.score = 0 then 0 else g.score - 1
           selector := updateCharacterWeight cfg g.selector g.correctChar false }

/-- `handleSkip` from the TSX source: clear the input and draw the next
character (excluding the skipped one); no weight update and no score
change. -/
def handleSkip (cfg : Config) (pool : List Key) (r : ℚ)
    (g : GameState) : Except SelectorError GameState :=
  generateNewCharacter cfg pool r { g with inputValue := "" }

/-- The selector states reachable from construction by any sequence of
the three exposed operations. -/
inductive Reachable (cfg : Config) : SelectorState → Prop where
  | init : Reachable cfg initialSelector
  | mark (s : SelectorState) (k : Key) :
      Reachable cfg s → Reachable cfg (markCharacterSeen cfg s k)
  | update (s : SelectorState) (k : Key) (b : Bool) :
      Reachable cfg s → Reachable cfg (updateCharacterWeight cfg s k b)
  | select (s : SelectorState) (pool : List Key) (e : Option Key) (r : ℚ)
      (k : Key) (s' : SelectorState) :
      Reachable cfg s → selectWeightedCharacter s pool e r = .ok (k, s') →
      Reachable cfg s'

/-! ### Lemmas on the cumulative-weight draw -/

theorem drawFrom_mem (ws : List (Key × ℚ)) (r : ℚ) (k : Key)
    (h : drawFrom ws r = some k) : k ∈ ws.map Prod.fst := by
  induction ws generalizing r with
  | nil => simp [drawFrom] at h
  | cons p rest ih =>
    rw [drawFrom] at h
    by_cases hr : r < p.2
    · simp [hr] at h
      simp [h]
    · simp [hr] at h
      exact List.mem_cons_of_mem _ (ih _ h)

theorem drawFrom_isSome (ws : List (Key × ℚ)) (r : ℚ)
    (hw : ∀ p ∈ ws, 0 ≤ p.2) (hr0 : 0 ≤ r)
    (hr : r < (ws.map Prod.snd).sum) : (drawFrom ws r).isSome := by
  induction ws generalizing r with
  | nil => simp at hr; linarith
  | cons p rest ih =>
    rw [drawFrom]
    by_cases hrp : r < p.2
    · simp [hrp]
    · simp only [hrp, if_false]
      rw [List.map_cons, List.sum_cons] at hr
      exact ih (r - p.2) (fun q hq => hw q (List.mem_cons_of_mem _ hq))
        (by linarith [not_lt.mp hrp]) (by linarith)

theorem drawFrom_ne_excluded (ws : List (Key × ℚ)) (r : ℚ) (e : Key)
    (hz : ∀ p ∈ ws, p.1 = e → p.2 = 0) (hr0 : 0 ≤ r) :
    drawFrom ws r ≠ some e := by
  induction ws generalizing r with
  | nil => simp [drawFrom]
  | cons p rest ih =>
    rw [drawFrom]
    by_cases hrp : r < p.2
    · simp only [hrp, if_true]
      intro h
      have hpe : p.1 = e := by simpa using h
      have : p.2 = 0 := hz p (List.mem_cons_self _ _) hpe
      rw [this] at hrp
      linarith
    · simp only [hrp, if_false]
      exact ih (r - p.2) (fun q hq => hz q (List.mem_cons_of_mem _ hq))
        (by linarith [not_lt.mp hrp])

theorem cumBeforeF_nonneg (f : Key → ℚ) (pool : List Key) (k : Key)
    (hw : ∀ j ∈ pool, 0 ≤ f j) : 0 ≤ cumBeforeF f pool k := by
  induction pool with
  | nil => simp [cumBeforeF]
  | cons a rest ih =>
    rw [cumBeforeF]
    by_cases hak : a = k
    · simp [hak]
    · simp only [hak, if_false]
      have h1 : 0 ≤ f a := hw a (List.mem_cons_self _ _)
      have h2 : 0 ≤ cumBeforeF f rest k :=
        ih fun j hj => hw j (List.mem_cons_of_mem _ hj)
      linarith

theorem drawFrom_map_eq_some_iff (f : Key → ℚ) (pool : List Key) (k : Key)
    (r : ℚ) (hnd : pool.Nodup) (hw : ∀ j ∈ pool, 0 ≤ f j) (hk : k ∈ pool)
    (hr0 : 0 ≤ r) :
    drawFrom (pool.map fun x => (x, f x)) r = some k ↔
      cumBeforeF f pool k ≤ r ∧ r < cumBeforeF f pool k + f k := by
  induction pool generalizing r with
  | nil => simp at hk
  | cons a rest ih =>
    have hwrest : ∀ j ∈ rest, 0 ≤ f j := fun j hj => hw j (List.mem_cons_of_mem _ hj)
    rw [List.map_cons, drawFrom]
    by_cases hak : a = k
    · subst hak
      have hnotin : a ∉ rest := (List.nodup_cons.mp hnd).1
      have hc : cumBeforeF f (a :: rest) a = 0 := by
        rw [cumBeforeF, if_pos rfl]
      rw [hc]
      by_cases hra : r < f a
      · rw [if_pos hra]
        constructor
        · intro _
          exact ⟨hr0, by linarith⟩
        · intro _
          rfl
      · rw [if_neg hra]
        constructor
        · intro h
          have hmem := drawFrom_mem _ _ _ h
          simp only [List.map_map] at hmem
          simp at hmem
          exact absurd hmem hnotin
        · intro h
          exfalso
          have h2 := h.2
          rw [zero_add] at h2
          exact hra h2
    · have hkrest : k ∈ rest := by
        cases List.mem_cons.mp hk with
        | inl h => exact absurd h.symm hak
        | inr h => exact h
      have hndrest : rest.Nodup := (List.nodup_cons.mp hnd).2
      have hc : cumBeforeF f (a :: rest) k = f a + cumBeforeF f rest k := by
        rw [cumBeforeF, if_neg hak]
      rw [hc]
      have hcnn : 0 ≤ cumBeforeF f rest k := cumBeforeF_nonneg f rest k hwrest
      by_cases hra : r < f a
      · rw [if_pos hra]
        constructor
        · intro h
          have : a = k := by simpa using h
          exact absurd this hak
        · intro h
          exfalso
          have h1 := h.1
          linarith
      · rw [if_neg hra]
        have hfa : f a ≤ r := not_lt.mp hra
        rw [ih (r - f a) hndrest hwrest hkrest (by linarith)]
        constructor
        · intro ⟨h1, h2⟩
          exact ⟨by linarith, by linarith⟩
        · intro ⟨h1, h2⟩
          exact ⟨by linarith, by linarith⟩

theorem drawFrom_map_exists (f : Key → ℚ) (pool : List Key) (e : Key)
    (he : e ∈ pool) (hpos : 0 < f e) (hw : ∀ j ∈ pool, 0 ≤ f j) :
    ∃ r : ℚ, 0 ≤ r ∧ r < (pool.map f).sum ∧
      drawFrom (pool.map fun x => (x, f x)) r = some e := by
  induction pool with
  | nil => simp at he
  | cons a rest ih =>
    have hwrest : ∀ j ∈ rest, 0 ≤ f j := fun j hj => hw j (List.mem_cons_of_mem _ hj)
    by_cases hae : a = e
    · subst hae
      refine ⟨0, le_refl 0, ?_, ?_⟩
      · have hs : 0 ≤ (rest.map f).sum := by
          refine List.sum_nonneg ?_
          intro x hx
          simp at hx
          obtain ⟨j, hj, rfl⟩ := hx
          exact hwrest j hj
        rw [List.map_cons, List.sum_cons]
        linarith
      · rw [List.map_cons, drawFrom]
        rw [if_pos hpos]
    · have herest : e ∈ rest := by
        cases List.mem_cons.mp he with
        | inl h => exact absurd h.symm hae
        | inr h => exact h
      obtain ⟨r, hr0, hrlt, hdraw⟩ := ih herest hwrest
      refine ⟨f a + r, ?_, ?_, ?_⟩
      · have := hw a (List.mem_cons_self _ _)
        linarith
      · simp
        linarith
      · rw [List.map_cons, drawFrom]
        have hna : ¬ f a + r < f a := by linarith
        simp only [hna, if_false]
        have : f a + r - f a = r := by ring
        rw [this]
        exact hdraw

/-! ### Basic lemmas on the Weight Table operations -/

theorem lookupW_setW_self (t : WeightTable) (k : Key) (w : ℚ) :
    lookupW (setW t k w) k = some w := by
  induction t with
  | nil => simp [setW, lookupW]
  | cons p t ih =>
    by_cases h : p.1 = k
    · simp [setW, h, lookupW]
    · simp [setW, h, lookupW, ih]

theorem lookupW_setW_ne (t : WeightTable) (k j : Key) (w : ℚ) (h : j ≠ k) :
    lookupW (setW t k w) j = lookupW t j := by
  have h2 : ¬ k = j := fun e => h e.symm
  induction t with
  | nil => simp [setW, lookupW, h2]
  | cons p t ih =>
    by_cases hp : p.1 = k
    · simp [setW, hp, lookupW, h2]
    · simp [setW, hp, lookupW, ih]

theorem lookupW_mark_self (cfg : Config) (s : SelectorState) (k : Key) :
    lookupW (markCharacterSeen cfg s k).weightTable k
      = some (getWeight s.weightTable k) := by
  unfold markCharacterSeen getWeight
  cases h : lookupW s.weightTable k with
  | none => simp [h, lookupW]
  | some w => simp [h]

theorem lookupW_mark_ne (cfg : Config) (s : SelectorState) (k j : Key)
    (h : j ≠ k) :
    lookupW (markCharacterSeen cfg s k).weightTable j = lookupW s.weightTable j := by
  have h2 : ¬ k = j := fun e => h e.symm
  unfold markCharacterSeen
  cases hk : lookupW s.weightTable k with
  | none => simp [hk, lookupW, h2]
  | some w => simp [hk]

theorem getWeight_mark (cfg : Config) (s : SelectorState) (k : Key) :
    getWeight (markCharacterSeen cfg s k).weightTable k
      = getWeight s.weightTable k := by
  unfold getWeight
  rw [lookupW_mark_self]
  rfl

theorem getWeight_update (cfg : Config) (s : SelectorState) (k : Key) (b : Bool) :
    getWeight (updateCharacterWeight cfg s k b).weightTable k
      = applyOutcome cfg (getWeight s.weightTable k) b := by
  unfold updateCharacterWeight
  cases h : lookupW s.weightTable k with
  | none =>
    simp only [h, Option.isSome_none, Bool.false_eq_true, if_false]
    rw [getWeight, lookupW_setW_self, Option.getD_some, getWeight_mark]
  | some w =>
    simp only [h, Option.isSome_some, if_true]
    rw [getWeight, lookupW_setW_self, Option.getD_some]

/-! ### Lemmas on selection -/

theorem effWeight_none (t : WeightTable) (pool : List Key) (k : Key) :
    effWeight t pool none k = getWeight t k := by
  simp [effWeight]

theorem poolWeights_none (t : WeightTable) (pool : List Key) :
    poolWeights t pool none = pool.map fun j => (j, getWeight t j) := by
  unfold poolWeights
  exact List.map_congr_left fun a _ => by rw [effWeight_none]

theorem select_state_eq (s : SelectorState) (pool : List Key)
    (e : Option Key) (r : ℚ) (k : Key) (s' : SelectorState)
    (h : selectWeightedCharacter s pool e r = .ok (k, s')) : s' = s := by
  match pool with
  | [] => simp [selectWeightedCharacter] at h
  | [a] =>
    simp [selectWeightedCharacter] at h
    exact h.2.symm
  | a :: b :: rest =>
    rw [selectWeightedCharacter] at h
    cases hd : drawFrom (poolWeights s.weightTable (a :: b :: rest) e) r with
    | none =>
      rw [hd] at h
      simp at h
      exact h.2.symm
    | some k' =>
      rw [hd] at h
      simp at h
      exact h.2.symm

theorem lookupW_update_ne (cfg : Config) (s : SelectorState) (k j : Key)
    (b : Bool) (h : j ≠ k) :
    lookupW (updateCharacterWeight cfg s k b).weightTable j
      = lookupW s.weightTable j := by
  unfold updateCharacterWeight
  cases hk : lookupW s.weightTable k with
  | none =>
    simp only [hk, Option.isSome_none, Bool.false_eq_true, if_false]
    rw [lookupW_setW_ne _ _ _ _ h, lookupW_mark_ne _ _ _ _ h]
  | some w =>
    simp only [hk, Option.isSome_some, if_true]
    rw [lookupW_setW_ne _ _ _ _ h]

/-! ### Claim theorems -/

/-- C4: for every pool containing exactly one element `k` and every value
of the `exclude` argument (including `exclude = k`), and every draw
point, `selectWeightedCharacter` returns `k` unconditionally — exclusion
is never honored on a single-item pool and no error is raised. -/
theorem single_candidate_determinism (s : SelectorState) (k : Key)
    (exclude : Option Key) (r : ℚ) :
    selectWeightedCharacter s [k] exclude r = .ok (k, s) := rfl

/-- C5: `selectWeightedCharacter` errs with `InvalidPoolError` exactly on
the empty pool — it raises the error there (never returning a value) and
returns a value on every non-empty pool, this being its only error
condition; the other operations (`markCharacterSeen`,
`updateCharacterWeight`) are total functions by construction. -/
theorem empty_pool_failure (s : SelectorState) (pool : List Key)
    (exclude : Option Key) (r : ℚ) :
    selectWeightedCharacter s pool exclude r = .error .invalidPoolError ↔
      pool = [] := by
  match pool with
  | [] => simp [selectWeightedCharacter]
  | [a] => simp [selectWeightedCharacter]
  | a :: b :: rest =>
    rw [selectWeightedCharacter]
    cases hd : drawFrom (poolWeights s.weightTable (a :: b :: rest) exclude) r with
    | none => simp
    | some k' => simp

/-- C7: `selectWeightedCharacter` is a pure read combined with the
random draw — whenever it succeeds, the selector state it returns is the
very state it was given, so the Weight Table and every stored weight are
unchanged. -/
theorem select_no_side_effect (s : SelectorState) (pool : List Key)
    (exclude : Option Key) (r : ℚ) (k : Key) (s' : SelectorState)
    (h : selectWeightedCharacter s pool exclude r = .ok (k, s')) :
    s' = s ∧ s'.weightTable = s.weightTable ∧
      ∀ j, getWeight s'.weightTable j = getWeight s.weightTable j := by
  have he := select_state_eq s pool exclude r k s' h
  exact ⟨he, by rw [he], fun j => by rw [he]⟩

/-- Witness for C7 at a concrete input: the draw on pool `["a", "b"]`
with table `[("a", 2)]` at draw point `0` succeeds and returns the state
unchanged. -/
theorem select_no_side_effect_witness :
    (selectWeightedCharacter ⟨[("a", 2)], []⟩ ["a", "b"] none 0
        = .ok ("a", ⟨[("a", 2)], []⟩)) ∧
      (⟨[("a", 2)], []⟩ : SelectorState) = ⟨[("a", 2)], []⟩ := by
  have hsel : selectWeightedCharacter ⟨[("a", 2)], []⟩ ["a", "b"] none 0
      = .ok ("a", ⟨[("a", 2)], []⟩) := by
    simp [selectWeightedCharacter, poolWeights, effWeight, getWeight, lookupW, drawFrom]
  exact ⟨hsel,
    (select_no_side_effect ⟨[("a", 2)], []⟩ ["a", "b"] none 0 "a"
      ⟨[("a", 2)], []⟩ hsel).1⟩

/-- C1: weighted random selection.  For a pool of distinct keys with
nonnegative resolved weights (default `1.0` for absent keys, via
`getWeight`) and any draw point `r` in `[0, total)`, the selector
returns key `k` exactly when `r` falls in `k`'s cumulative-weight
interval `[cumBefore k, cumBefore k + weight k)` — the first key whose
cumulative weight exceeds the draw point.  Under a uniform draw over
`[0, total)` the interval has length `weight k`, so the probability of
choosing `k` is `weight(k) / total`. -/
theorem weighted_random_selection (s : SelectorState) (pool : List Key)
    (k : Key) (r : ℚ) (hnd : pool.Nodup)
    (hw : ∀ j ∈ pool, 0 ≤ getWeight s.weightTable j) (hk : k ∈ pool)
    (hr0 : 0 ≤ r) (hrt : r < totalWeight s.weightTable pool) :
    selectWeightedCharacter s pool none r = .ok (k, s) ↔
      cumBefore s.weightTable pool k ≤ r ∧
        r < cumBefore s.weightTable pool k + getWeight s.weightTable k := by
  match pool with
  | [] => simp at hk
  | [a] =>
    have hka : k = a := by simpa using hk
    subst hka
    rw [totalWeight] at hrt
    simp only [List.map_cons, List.map_nil, List.sum_cons, List.sum_nil,
      add_zero] at hrt
    have hc : cumBefore s.weightTable [k] k = 0 := by
      rw [cumBefore, cumBeforeF, if_pos rfl]
    rw [hc, zero_add]
    constructor
    · intro _
      exact ⟨hr0, hrt⟩
    · intro _
      rfl
  | a :: b :: rest =>
    rw [selectWeightedCharacter]
    rw [poolWeights_none]
    have hsum : ((List.map (fun j => (j, getWeight s.weightTable j))
        (a :: b :: rest)).map Prod.snd).sum
          = totalWeight s.weightTable (a :: b :: rest) := by
      rw [totalWeight, List.map_map]
      rfl
    have hsome := drawFrom_isSome
      ((a :: b :: rest).map fun j => (j, getWeight s.weightTable j)) r
      (by
        intro p hp
        rw [List.mem_map] at hp
        obtain ⟨j, hj, rfl⟩ := hp
        exact hw j hj)
      hr0 (by rw [hsum]; exact hrt)
    obtain ⟨k', hk'⟩ := Option.isSome_iff_exists.mp hsome
    rw [hk']
    have hiff := drawFrom_map_eq_some_iff (getWeight s.weightTable)
      (a :: b :: rest) k r hnd hw hk hr0
    rw [hk'] at hiff
    rw [cumBefore]
    rw [← hiff]
    simp

/-- Witness for C1 at a concrete input: with an empty table (all weights
defaulting to `1.0`), pool `["a", "b"]` and draw point `1`, the draw
point falls in `"b"`'s cumulative interval `[1, 2)` and `"b"` is
selected. -/
theorem weighted_random_selection_witness :
    selectWeightedCharacter initialSelector ["a", "b"] none 1
      = .ok ("b", initialSelector) := by
  have h := weighted_random_selection initialSelector ["a", "b"] "b" 1
    (by decide)
    (by intro j hj; simp [getWeight, lookupW])
    (by decide) (by norm_num)
    (by simp [totalWeight, getWeight, lookupW])
  refine h.mpr ?_
  constructor
  · simp [cumBefore, cumBeforeF, getWeight, lookupW]
  · simp [cumBefore, cumBeforeF, getWeight, lookupW]

/-- C6: exclusion.  On a pool with more than one distinct element whose
stored weights are positive, and a draw point within the effective total,
selection with `exclude = e` never returns `e` (its effective weight is
`0` for that draw) and leaves the selector state — in particular `e`'s
Weight Table entry — unchanged; and `e` remains selectable on a
following draw without exclusion: some in-range draw point returns it. -/
theorem exclusion_bias (s : SelectorState) (pool : List Key) (e : Key)
    (r : ℚ) (hd : 1 < pool.dedup.length)
    (hpos : ∀ j ∈ pool, 0 < getWeight s.weightTable j) (he : e ∈ pool)
    (hr0 : 0 ≤ r) (hrt : r < effTotal s.weightTable pool (some e)) :
    (∀ k s', selectWeightedCharacter s pool (some e) r = .ok (k, s') →
        k ≠ e ∧ s' = s) ∧
      ∃ r', 0 ≤ r' ∧ r' < totalWeight s.weightTable pool ∧
        selectWeightedCharacter s pool none r' = .ok (e, s) := by
  match pool with
  | [] => simp at he
  | [a] =>
    rw [List.dedup_cons_of_not_mem (by simp), List.dedup_nil] at hd
    simp at hd
  | a :: b :: rest =>
    constructor
    · intro k s' hsel
      rw [selectWeightedCharacter] at hsel
      cases hdw : drawFrom (poolWeights s.weightTable (a :: b :: rest) (some e)) r with
      | none =>
        exfalso
        have hsome := drawFrom_isSome
          (poolWeights s.weightTable (a :: b :: rest) (some e)) r
          (by
            intro p hp
            rw [poolWeights, List.mem_map] at hp
            obtain ⟨j, hj, rfl⟩ := hp
            show 0 ≤ effWeight s.weightTable (a :: b :: rest) (some e) j
            unfold effWeight
            by_cases hje : some e = some j ∧ 1 < (a :: b :: rest).dedup.length
            · rw [if_pos hje]
            · rw [if_neg hje]
              exact le_of_lt (hpos j hj))
          hr0 hrt
        rw [hdw] at hsome
        simp at hsome
      | some k' =>
        rw [hdw] at hsel
        simp at hsel
        obtain ⟨hkk, hss⟩ := hsel
        have hne : k' ≠ e := by
          intro hke
          refine drawFrom_ne_excluded
            (poolWeights s.weightTable (a :: b :: rest) (some e)) r e ?_ hr0 ?_
          · intro p hp hpe
            rw [poolWeights, List.mem_map] at hp
            obtain ⟨j, hj, rfl⟩ := hp
            have hje : j = e := hpe
            rw [hje]
            show effWeight s.weightTable (a :: b :: rest) (some e) e = 0
            unfold effWeight
            rw [if_pos ⟨rfl, hd⟩]
          · exact hke ▸ hdw
        exact ⟨hkk ▸ hne, hss.symm⟩
    · obtain ⟨r', hr'0, hr'lt, hdraw⟩ :=
        drawFrom_map_exists (getWeight s.weightTable) (a :: b :: rest) e
          he (hpos e he) (fun j hj => le_of_lt (hpos j hj))
      refine ⟨r', hr'0, hr'lt, ?_⟩
      rw [selectWeightedCharacter, poolWeights_none, hdraw]

/-- Witness for C6 at a concrete input: with the empty table, pool
`["a", "b"]`, exclusion of `"a"` and draw point `0`, the draw cannot
return `"a"`, and `"a"` is still selectable on an unexcluded draw. -/
theorem exclusion_bias_witness :
    (∀ k s', selectWeightedCharacter initialSelector ["a", "b"] (some "a") 0
        = .ok (k, s') → k ≠ "a" ∧ s' = initialSelector) ∧
      ∃ r', 0 ≤ r' ∧ r' < totalWeight initialSelector.weightTable ["a", "b"] ∧
        selectWeightedCharacter initialSelector ["a", "b"] none r'
          = .ok ("a", initialSelector) :=
  exclusion_bias initialSelector ["a", "b"] "a" 0 (by decide)
    (by intro j hj; simp [getWeight, lookupW])
    (by decide) le_rfl
    (by simp [effTotal, poolWeights, effWeight, getWeight, lookupW])

theorem applyOutcome_true (cfg : Config) (w : ℚ) :
    applyOutcome cfg w true = max cfg.wMin (w * cfg.dCorrect) := rfl

theorem applyOutcome_false (cfg : Config) (w : ℚ) :
    applyOutcome cfg w false = min cfg.wMax (w * cfg.dWrong) := rfl

theorem defaultConfig_valid : defaultConfig.Valid := by
  norm_num [defaultConfig, Config.Valid]

/-- C2: weight monotonicity.  For a key whose current weight lies within
the `[w_min, w_max]` bounds (as every reachable weight does), a correct
outcome never increases the weight — strictly decreasing it while above
the floor `w_min` — and a wrong outcome never decreases it — strictly
increasing it while below the cap `w_max`; hence this holds at every
step of any sequence of `updateCharacterWeight` calls. -/
theorem weight_monotonicity (cfg : Config) (s : SelectorState) (k : Key)
    (hv : cfg.Valid) (hlo : cfg.wMin ≤ getWeight s.weightTable k)
    (hhi : getWeight s.weightTable k ≤ cfg.wMax) :
    (getWeight (updateCharacterWeight cfg s k true).weightTable k
        ≤ getWeight s.weightTable k) ∧
      (cfg.wMin < getWeight s.weightTable k →
        getWeight (updateCharacterWeight cfg s k true).weightTable k
          < getWeight s.weightTable k) ∧
      (getWeight s.weightTable k
        ≤ getWeight (updateCharacterWeight cfg s k false).weightTable k) ∧
      (getWeight s.weightTable k < cfg.wMax →
        getWeight s.weightTable k
          < getWeight (updateCharacterWeight cfg s k false).weightTable k) := by
  obtain ⟨hd0, hd1, hw1, hm0, hm1, hx1⟩ := hv
  have hw0 : 0 < getWeight s.weightTable k := lt_of_lt_of_le hm0 hlo
  rw [getWeight_update, getWeight_update, applyOutcome_true, applyOutcome_false]
  refine ⟨?_, ?_, ?_, ?_⟩
  · exact max_le hlo
      (mul_le_of_le_one_right (le_of_lt hw0) (le_of_lt hd1))
  · intro hstrict
    exact max_lt hstrict (mul_lt_of_lt_one_right hw0 hd1)
  · exact le_min hhi (le_mul_of_one_le_right (le_of_lt hw0) (le_of_lt hw1))
  · intro hstrict
    exact lt_min hstrict (lt_mul_of_one_lt_right hw0 hw1)

/-- Witness for C2 at a concrete input: the default configuration is
valid, the default weight `1.0` of an unseen key lies within bounds, and
one correct and one wrong update move the weight strictly down and up
respectively. -/
theorem weight_monotonicity_witness :
    (getWeight (updateCharacterWeight defaultConfig initialSelector "a" true).weightTable "a"
        ≤ getWeight initialSelector.weightTable "a") ∧
      (getWeight initialSelector.weightTable "a"
        ≤ getWeight (updateCharacterWeight defaultConfig initialSelector "a" false).weightTable "a") := by
  have h := weight_monotonicity defaultConfig initialSelector "a"
    defaultConfig_valid
    (by norm_num [initialSelector, getWeight, lookupW, defaultConfig])
    (by norm_num [initialSelector, getWeight, lookupW, defaultConfig])
  exact ⟨h.1, h.2.2.1⟩

/-- C8: lazy initialization.  `updateCharacterWeight` on a key with no
Weight Table entry never fails (it is a total function), initializes the
key at the default weight `1.0` and applies the adjustment to it,
producing exactly the state of `markCharacterSeen` followed by
`updateCharacterWeight`. -/
theorem lazy_initialization (cfg : Config) (s : SelectorState) (k : Key)
    (b : Bool) (h : lookupW s.weightTable k = none) :
    updateCharacterWeight cfg s k b
        = updateCharacterWeight cfg (markCharacterSeen cfg s k) k b ∧
      getWeight (updateCharacterWeight cfg s k b).weightTable k
        = applyOutcome cfg 1 b := by
  constructor
  · rw [updateCharacterWeight, updateCharacterWeight]
    rw [h]
    simp only [Option.isSome_none, Bool.false_eq_true, if_false]
    rw [lookupW_mark_self]
    simp only [Option.isSome_some, if_true]
  · rw [getWeight_update]
    rw [getWeight, h]
    rfl

/-- Witness for C8 at a concrete input: updating the never-seen key
`"a"` in the fresh selector equals marking it seen first and updating,
and the result applies the adjustment to the default weight `1.0`. -/
theorem lazy_initialization_witness :
    (updateCharacterWeight defaultConfig initialSelector "a" true
        = updateCharacterWeight defaultConfig
            (markCharacterSeen defaultConfig initialSelector "a") "a" true) ∧
      getWeight (updateCharacterWeight defaultConfig initialSelector "a" true).weightTable "a"
        = applyOutcome defaultConfig 1 true :=
  lazy_initialization defaultConfig initialSelector "a" true rfl

/-- C9: idempotent seen-marking.  Calling `markCharacterSeen` twice in
succession leaves the Weight Table exactly as after a single call, and a
call on a key that already has an entry does not change the Weight Table
at all — repeated calls never change an existing weight. -/
theorem idempotent_seen_marking (cfg : Config) (s : SelectorState) (k : Key) :
    (markCharacterSeen cfg (markCharacterSeen cfg s k) k).weightTable
        = (markCharacterSeen cfg s k).weightTable ∧
      ((lookupW s.weightTable k).isSome →
        (markCharacterSeen cfg s k).weightTable = s.weightTable) := by
  constructor
  · have h := lookupW_mark_self cfg s k
    rw [markCharacterSeen, h]
    simp only [Option.isSome_some, if_true]
  · intro h
    rw [markCharacterSeen]
    rw [if_pos h]

/-- Witness for C9 at a concrete input: double-marking `"a"` from the
fresh selector changes nothing over a single mark, and re-marking a key
that already has weight `2` leaves the table untouched. -/
theorem idempotent_seen_marking_witness :
    ((markCharacterSeen defaultConfig
          (markCharacterSeen defaultConfig initialSelector "a") "a").weightTable
        = (markCharacterSeen defaultConfig initialSelector "a").weightTable) ∧
      (markCharacterSeen defaultConfig ⟨[("a", 2)], []⟩ "a").weightTable
        = [("a", 2)] :=
  ⟨(idempotent_seen_marking defaultConfig initialSelector "a").1,
    (idempotent_seen_marking defaultConfig ⟨[("a", 2)], []⟩ "a").2 (by decide)⟩

theorem getWeight_bounds_of (cfg : Config) (hv : cfg.Valid) (t : WeightTable)
    (H : ∀ k w, lookupW t k = some w → cfg.wMin ≤ w ∧ w ≤ cfg.wMax ∧ 0 < w)
    (k : Key) :
    cfg.wMin ≤ getWeight t k ∧ getWeight t k ≤ cfg.wMax ∧ 0 < getWeight t k := by
  obtain ⟨_, _, _, _, hm1, hx1⟩ := hv
  cases hl : lookupW t k with
  | none =>
    rw [getWeight, hl]
    exact ⟨hm1, hx1, one_pos⟩
  | some w =>
    rw [getWeight, hl]
    exact H k w hl

theorem applyOutcome_bounds (cfg : Config) (hv : cfg.Valid) (w : ℚ)
    (hlo : cfg.wMin ≤ w) (hhi : w ≤ cfg.wMax) (b : Bool) :
    cfg.wMin ≤ applyOutcome cfg w b ∧ applyOutcome cfg w b ≤ cfg.wMax ∧
      0 < applyOutcome cfg w b := by
  obtain ⟨hd0, hd1, hw1, hm0, hm1, hx1⟩ := hv
  have hw0 : 0 ≤ w := le_of_lt (lt_of_lt_of_le hm0 hlo)
  cases b with
  | true =>
    rw [applyOutcome_true]
    refine ⟨le_max_left _ _, ?_, lt_of_lt_of_le hm0 (le_max_left _ _)⟩
    exact max_le (le_trans hm1 hx1)
      (le_trans (mul_le_of_le_one_right hw0 (le_of_lt hd1)) hhi)
  | false =>
    rw [applyOutcome_false]
    have hmin : cfg.wMin ≤ min cfg.wMax (w * cfg.dWrong) :=
      le_min (le_trans hm1 hx1)
        (le_trans hlo (le_mul_of_one_le_right hw0 (le_of_lt hw1)))
    exact ⟨hmin, min_le_left _ _, lt_of_lt_of_le hm0 hmin⟩

theorem lookupW_update_self (cfg : Config) (s : SelectorState) (k : Key)
    (b : Bool) :
    lookupW (updateCharacterWeight cfg s k b).weightTable k
      = some (applyOutcome cfg (getWeight s.weightTable k) b) := by
  unfold updateCharacterWeight
  cases h : lookupW s.weightTable k with
  | none =>
    simp only [h, Option.isSome_none, Bool.false_eq_true, if_false]
    rw [lookupW_setW_self, getWeight_mark]
  | some w =>
    simp only [h, Option.isSome_some, if_true]
    rw [lookupW_setW_self]

/-- C3: weight bounds.  In every selector state reachable by any
sequence of the exposed operations under a valid configuration, every
key with a Weight Table entry has its weight within
`[w_min, w_max]` — and in particular strictly positive. -/
theorem weight_bounds (cfg : Config) (s : SelectorState) (hv : cfg.Valid)
    (hs : Reachable cfg s) :
    ∀ k w, lookupW s.weightTable k = some w →
      cfg.wMin ≤ w ∧ w ≤ cfg.wMax ∧ 0 < w := by
  induction hs with
  | init =>
    intro k w h
    simp [initialSelector, lookupW] at h
  | mark s2 k2 _ ih =>
    intro k w h
    by_cases hk : k = k2
    · subst hk
      rw [lookupW_mark_self] at h
      injection h with h2
      rw [← h2]
      exact getWeight_bounds_of cfg hv s2.weightTable ih k
    · rw [lookupW_mark_ne cfg s2 k2 k hk] at h
      exact ih k w h
  | update s2 k2 b _ ih =>
    intro k w h
    by_cases hk : k = k2
    · subst hk
      rw [lookupW_update_self] at h
      injection h with h2
      rw [← h2]
      obtain ⟨hlo, hhi, _⟩ := getWeight_bounds_of cfg hv s2.weightTable ih k
      exact applyOutcome_bounds cfg hv _ hlo hhi b
    · rw [lookupW_update_ne cfg s2 k2 k b hk] at h
      exact ih k w h
  | select s2 pool e r k2 s3 _ hsel ih =>
    intro k w h
    rw [select_state_eq s2 pool e r k2 s3 hsel] at h
    exact ih k w h

/-- Witness for C3 at a concrete input: in the state reached from the
fresh selector by one correct-answer `updateCharacterWeight` under the
default (valid) configuration, the stored weight of `"a"` is `17/20`,
and it satisfies the bounds. -/
theorem weight_bounds_witness :
    lookupW (updateCharacterWeight defaultConfig initialSelector "a" true).weightTable "a"
        = some (17/20) ∧
      (defaultConfig.wMin ≤ 17/20 ∧ (17/20 : ℚ) ≤ defaultConfig.wMax ∧
        (0 : ℚ) < 17/20) := by
  have hl : lookupW (updateCharacterWeight defaultConfig initialSelector "a" true).weightTable "a"
      = some (17/20) := by
    norm_num [updateCharacterWeight, markCharacterSeen, initialSelector,
      lookupW, setW, getWeight, applyOutcome, defaultConfig]
  exact ⟨hl,
    weight_bounds defaultConfig
      (updateCharacterWeight defaultConfig initialSelector "a" true)
      defaultConfig_valid
      (Reachable.update initialSelector "a" true Reachable.init)
      "a" (17/20) hl⟩

/-- C10: a wrong answer never advances the drill.  `handleWrongAnswer`
updates the answered character's weight with `wasCorrect = false` and
leaves the displayed character (`correctChar`) unchanged — the same
question is presented again — while a correct answer and a skip each
draw a new character through `selectWeightedCharacter` with the current
character passed as `exclude`. -/
theorem wrong_answer_never_advances (cfg : Config) (g : GameState)
    (pool : List Key) (r : ℚ) :
    ((handleWrongAnswer cfg g).correctChar = g.correctChar ∧
        (handleWrongAnswer cfg g).selector
          = updateCharacterWeight cfg g.selector g.correctChar false) ∧
      ∀ k s',
        selectWeightedCharacter g.selector pool (some g.correctChar) r
            = .ok (k, s') →
          handleSkip cfg pool r g
              = .ok { g with inputValue := ""
                             selector := markCharacterSeen cfg s' k
                             correctChar := k } ∧
            handleCorrectAnswer cfg pool r g
              = .ok { g with score := g.score + 1
                             inputValue := ""
                             selector := updateCharacterWeight cfg
                               (markCharacterSeen cfg s' k) g.correctChar true
                             correctChar := k } := by
  refine ⟨⟨rfl, rfl⟩, ?_⟩
  intro k s' h
  constructor
  · rw [handleSkip, generateNewCharacter]
    simp only
    rw [h]
  · rw [handleCorrectAnswer, generateNewCharacter]
    simp only
    rw [h]

/-- Witness for C10 at a concrete input: from the state displaying
`"a"`, a wrong answer keeps `"a"` displayed, and a skip on pool
`["a", "b"]` draws `"b"` (with `"a"` excluded). -/
theorem wrong_answer_never_advances_witness :
    ((handleWrongAnswer defaultConfig ⟨initialSelector, "a", 0, "x"⟩).correctChar
        = "a") ∧
      handleSkip defaultConfig ["a", "b"] 0 ⟨initialSelector, "a", 0, "x"⟩
        = .ok ⟨markCharacterSeen defaultConfig initialSelector "b", "b", 0, ""⟩ := by
  have hsel : selectWeightedCharacter initialSelector ["a", "b"] (some "a") 0
      = .ok ("b", initialSelector) := by
    simp [selectWeightedCharacter, poolWeights, effWeight, getWeight, lookupW,
      drawFrom, initialSelector]
  have h := wrong_answer_never_advances defaultConfig
    ⟨initialSelector, "a", 0, "x"⟩ ["a", "b"] 0
  exact ⟨h.1.1, (h.2 "b" initialSelector hsel).1⟩

end KanaDojo
